import Mathlib

/-!
Verification of the sorted-block (SSTable data/index block) core of the
repository: `BlockBuilder` (cpp/misc/sst/block_builder.cpp) and
`Block` / `Block::BlockIterator` (cpp/misc/sst/block.cpp), over a shallow
embedding.  Byte buffers are `List Nat` of byte values; `u32`/`size_t`
arithmetic is `Nat` with explicit reductions modulo 2^32 / 2^64 where the
C++ types can wrap.  The external leaf utilities that are not part of the
repository sources (the fixed-width integer codec of encoding.h, the
`Binary` byte-view of cpp/tools/binary.h, the `Status` value of
cpp/tools/status.h) are modelled from the spec as noted on each definition.
-/

namespace pl

abbrev Bytes := List Nat

def pow32 : Nat := 4294967296

def pow64 : Nat := 18446744073709551616

/-- C++ `size_t` subtraction `a - b` (wraps modulo 2^64); `a` is assumed
already reduced below 2^64. -/
def sub64 (a b : Nat) : Nat := (a + (pow64 - b % pow64)) % pow64

/-- Reading one byte at index `i`; reads outside the buffer are modelled as 0
(the C++ reads whatever memory is there, which no well-formed input reaches). -/
def byteAt (s : Bytes) (i : Nat) : Nat := s.getD i 0

/-- Modelled from the spec: `encodeInt<uint32_t>` of cpp/misc/sst/encoding.h
(not under src/) is a fixed-width 4-byte integer encode; little-endian order
is chosen, consistently with `dec32`. -/
def enc32 (n : Nat) : Bytes :=
  [n % 256, n / 256 % 256, n / 65536 % 256, n / 16777216 % 256]

/-- Modelled from the spec: `decodeInt<uint32_t>` of cpp/misc/sst/encoding.h
(not under src/), inverse fixed-width u32 decode at byte offset `i`. -/
def dec32 (s : Bytes) (i : Nat) : Nat :=
  byteAt s i + 256 * byteAt s (i + 1) + 65536 * byteAt s (i + 2) +
    16777216 * byteAt s (i + 3)

/-- `Binary(p, len)` where `p` points `off` bytes into buffer `s`. -/
def slice (s : Bytes) (off len : Nat) : Bytes := (s.drop off).take len

/-- Modelled from the spec: `Binary::compare` (cpp/tools/binary.h is not under
src/) as used by the repository's `BytewiseComparator`
(cpp/misc/sst/comparator.cpp): byte-wise lexicographic order, returning the
sign expected of a C++ three-way compare. -/
def bcmp : Bytes → Bytes → Int
  | [], [] => 0
  | [], _ :: _ => -1
  | _ :: _, [] => 1
  | a :: as, b :: bs => if a < b then -1 else if b < a then 1 else bcmp as bs

/-- The shared-byte count computed by the loop in `BlockBuilder::add`
(block_builder.cpp lines 32-35). -/
def commonPrefixLen : Bytes → Bytes → Nat
  | a :: as, b :: bs => if a = b then commonPrefixLen as bs + 1 else 0
  | _, _ => 0

/-- The mutable state of `BlockBuilder` (block_builder.h is not under src/:
the fields are those assigned in block_builder.cpp; `Modelled from the spec:`
`reset()` seeds exactly this state, which the constructor also establishes). -/
structure BlockBuilder where
  buffer : Bytes
  last_key : Bytes
  restarts : List Nat
  counter : Nat
  finished : Bool
deriving DecidableEq, Repr

/-- State after `BlockBuilder::BlockBuilder` (restarts seeded with `[0]`). -/
def BlockBuilder.init : BlockBuilder := ⟨[], [], [0], 0, false⟩

/-- `BlockBuilder::add` (block_builder.cpp lines 24-60); `interval` is
`options->block_restart_interval`.  The `assert`s (not-finished, key strictly
above the previous key) are preconditions, not modelled as transitions. -/
def BlockBuilder.add (interval : Nat) (st : BlockBuilder) (key value : Bytes) :
    BlockBuilder :=
  let t :=
    if st.counter < interval then (commonPrefixLen st.last_key key, st.restarts, st.counter)
    else (0, st.restarts ++ [st.buffer.length], 0)
  match t with
  | (shared, restarts, counter) =>
      let non_shared := key.length - shared
      { buffer := st.buffer ++ enc32 shared ++ enc32 non_shared ++
          enc32 value.length ++ key.drop shared ++ value,
        last_key := st.last_key.take shared ++ key.drop shared,
        restarts := restarts,
        counter := counter + 1,
        finished := st.finished }

/-- The byte string returned by `BlockBuilder::finish` (block_builder.cpp
lines 62-78): buffer, then each restart offset as u32, then the restart
count as u32. -/
def BlockBuilder.finish (st : BlockBuilder) : Bytes :=
  st.buffer ++ (st.restarts.map enc32).flatten ++ enc32 st.restarts.length

/-- `BlockBuilder::sizeEstimate` (block_builder.cpp lines 80-82). -/
def BlockBuilder.sizeEstimate (st : BlockBuilder) : Nat :=
  st.buffer.length + st.restarts.length * 4 + 4

/-- `BlockBuilder::reset` (block_builder.cpp lines 84-91). -/
def BlockBuilder.reset (_ : BlockBuilder) : BlockBuilder :=
  { buffer := [], last_key := [], restarts := [0], counter := 0, finished := false }

/-- Feeding a list of entries through `add` in order. -/
def buildList (interval : Nat) (st : BlockBuilder) :
    List (Bytes × Bytes) → BlockBuilder
  | [] => st
  | (k, v) :: rest => buildList interval (st.add interval k v) rest

/-- The fields of `Block` set by its constructor (block.cpp lines 16-27).
`size = 0` encodes the invalid-block branch. -/
structure Block where
  data : Bytes
  size : Nat
  restart_offset : Nat
  num_restarts : Nat
deriving DecidableEq, Repr

/-- `Block::Block` (block.cpp lines 16-27).  `size_t` arithmetic wraps via
`sub64`; the `(1 + num_restarts_) * 4` product is u32 arithmetic.  On the
invalid branch the C++ leaves `restart_offset_` unassigned (its declaration
is in block.h, which is not under src/); `Modelled from the spec:` the block
is treated as empty/corrupt with zero usable bytes, so the unassigned member
is modelled as 0. -/
def Block.make (bytes : Bytes) : Block :=
  let size := bytes.length
  let n := dec32 bytes (sub64 size 4)
  let maxr := sub64 size 4 / 4
  if n > maxr then ⟨bytes, 0, 0, n⟩
  else ⟨bytes, size, sub64 size ((1 + n) % pow32 * 4 % pow32), n⟩

/-- What `Block::iterator` passes to the `BlockIterator` constructor
(block.cpp lines 37-41, 209-211): the data pointer (the block start),
`restart_offset_` and `num_restarts_`. -/
structure BlockRef where
  data : Bytes
  restarts : Nat
  num_restarts : Nat
deriving DecidableEq, Repr

def Block.ref (b : Block) : BlockRef := ⟨b.data, b.restart_offset, b.num_restarts⟩

/-- The mutable state of `Block::BlockIterator` (block.cpp lines 196-205).
`val = some (off, len)` stands for `val_ = Binary(data_ + off, len)`;
`Modelled from the spec:` the default-constructed `Binary` (cpp/tools/binary.h
is not under src/) does not point into the block, so it is modelled as
`none`.  `ok` is `status_.isOk()` (cpp/tools/status.h is not under src/:
only OK versus the corruption set in `seek` is observable here). -/
structure BIter where
  current : Nat
  current_restart : Nat
  key : Bytes
  val : Option (Nat × Nat)
  ok : Bool
deriving DecidableEq, Repr

/-- A freshly constructed iterator: `current_{0}`, `current_restart_{0}`,
empty `key_`, default `val_`, OK status (block.cpp lines 201-205). -/
def BIter.init : BIter := ⟨0, 0, [], none, true⟩

/-- `BlockIterator::valid` (block.cpp line 43). -/
def BIter.valid (br : BlockRef) (it : BIter) : Bool :=
  it.current < br.restarts

/-- `BlockIterator::getRestartOffset` (block.cpp lines 136-139).  Note the
source reads at `data_ + idx * 4`, i.e. from the start of the block, not at
`data_ + restarts_ + idx * 4`. -/
def getRestartOffset (br : BlockRef) (idx : Nat) : Nat :=
  dec32 br.data (idx * 4)

/-- `BlockIterator::seekToRestartPoint` (block.cpp lines 141-146):
clears `key_`, sets `current_restart_`, points `val_` at the restart offset
with length 0; `current_` is not touched. -/
def seekToRestartPoint (br : BlockRef) (it : BIter) (idx : Nat) : BIter :=
  { it with
    key := [], current_restart := idx,
    val := some (getRestartOffset br idx, 0) }

/-- `BlockIterator::nextEntryOffset` (block.cpp lines 148-150):
`(val_.data() + val_.size()) - data_`.  For the `none` (default `Binary`)
case the C++ pointer difference is unrelated to the block;
`Modelled from the spec:` it is modelled as the out-of-data sentinel
`br.restarts` (no claim is settled through this case). -/
def nextEntryOffset (br : BlockRef) (it : BIter) : Nat :=
  match it.val with
  | some (o, l) => o + l
  | none => br.restarts

/-- `BlockIterator::decodeEntry` (block.cpp lines 177-190): fails only when
fewer than 3 bytes remain before `limit`; otherwise reads three u32 fields at
`p`, `p+4`, `p+8` (which may read past `limit`, as the C++ does). -/
def decodeEntry (data : Bytes) (p limit : Nat) : Option (Nat × Nat × Nat) :=
  if limit < p + 3 then none
  else some (dec32 data p, dec32 data (p + 4), dec32 data (p + 8))

/-- The `while` loop at block.cpp lines 169-172, advancing
`current_restart_`; structurally recursive on an explicit fuel (the wrapper
passes `num_restarts`, an upper bound on the number of increments). -/
def advanceRestart (br : BlockRef) : Nat → Nat → Nat → Nat
  | 0, cr, _ => cr
  | fuel + 1, cr, cur =>
      if cr + 1 < br.num_restarts ∧ getRestartOffset br cr < cur then
        advanceRestart br fuel (cr + 1) cur
      else cr

/-- `BlockIterator::parseNextKeyVal` (block.cpp lines 152-175), returning the
new state and the Bool result.  On decode failure or a too-short cached key
the source only returns false (the `TODO` at line 163): no status change, no
transition to the exhausted state. -/
def parseNextKeyVal (br : BlockRef) (it : BIter) : BIter × Bool :=
  let cur := nextEntryOffset br it
  if br.restarts ≤ cur then
    ({ it with current := br.restarts, current_restart := br.num_restarts }, false)
  else
    match decodeEntry br.data cur br.restarts with
    | none => ({ it with current := cur }, false)
    | some (shared, non_shared, value_size) =>
        if it.key.length < shared then ({ it with current := cur }, false)
        else
          ({ it with
              current := cur,
              key := it.key.take shared ++ slice br.data (cur + 12) non_shared,
              val := some (cur + 12 + non_shared, value_size),
              current_restart :=
                advanceRestart br br.num_restarts it.current_restart cur }, true)

/-- `BlockIterator::next` (block.cpp lines 128-131); `assert(valid())` is a
precondition. -/
def BIter.next (br : BlockRef) (it : BIter) : BIter :=
  (parseNextKeyVal br it).1

/-- `BlockIterator::first` (block.cpp lines 101-104). -/
def BIter.first (br : BlockRef) (it : BIter) : BIter :=
  (parseNextKeyVal br (seekToRestartPoint br it 0)).1

/-- The loop of `BlockIterator::last` (block.cpp line 108):
`while (parseNextKeyVal() && nextEntryOffset() < restarts_)`. -/
def lastLoop (br : BlockRef) : Nat → BIter → BIter
  | 0, it => it
  | fuel + 1, it =>
      let r := parseNextKeyVal br it
      if r.2 = true ∧ nextEntryOffset br r.1 < br.restarts then lastLoop br fuel r.1
      else r.1

/-- `BlockIterator::last` (block.cpp lines 106-110).  `num_restarts_ - 1` is
u32 arithmetic (wraps when `num_restarts_ = 0`). -/
def BIter.last (br : BlockRef) (it : BIter) : BIter :=
  lastLoop br (br.restarts + 1)
    (seekToRestartPoint br it ((br.num_restarts + (pow32 - 1)) % pow32))

/-- The backward walk of `BlockIterator::prev` (block.cpp lines 115-122);
`none` is the took-the-return branch (position before the first entry). -/
def prevDown (br : BlockRef) : Nat → Nat → Nat → Option Nat
  | 0, cr, _ => some cr
  | fuel + 1, cr, old =>
      if old ≤ getRestartOffset br cr then
        if cr = 0 then none else prevDown br fuel (cr - 1) old
      else some cr

/-- The replay loop of `BlockIterator::prev` (block.cpp lines 124-125). -/
def prevScan (br : BlockRef) (old : Nat) : Nat → BIter → BIter
  | 0, it => it
  | fuel + 1, it =>
      let r := parseNextKeyVal br it
      if r.2 = true ∧ nextEntryOffset br r.1 < old then prevScan br old fuel r.1
      else r.1

/-- `BlockIterator::prev` (block.cpp lines 112-126); `assert(valid())` is a
precondition. -/
def BIter.prev (br : BlockRef) (it : BIter) : BIter :=
  match prevDown br (br.num_restarts + 1) it.current_restart it.current with
  | none => { it with current := br.restarts, current_restart := br.num_restarts }
  | some cr => prevScan br it.current (br.restarts + 1) (seekToRestartPoint br it cr)

/-- The corruption exit inside `seek` (block.cpp lines 70-77): corruption
status, exhausted position, cleared key and value. -/
def corruptState (br : BlockRef) : BIter :=
  ⟨br.restarts, br.num_restarts, [], none, false⟩

/-- The binary search of `seek` (block.cpp lines 64-84); `none` reports the
corruption exit (null decode or non-zero shared at a restart point). -/
def seekLoop (br : BlockRef) (cmp : Bytes → Bytes → Int) (target : Bytes) :
    Nat → Nat → Nat → Option Nat
  | 0, left, _ => some left
  | fuel + 1, left, right =>
      if left < right then
        let mid := (left + right + 1) / 2
        let offset := getRestartOffset br mid
        match decodeEntry br.data offset br.restarts with
        | none => none
        | some (shared, non_shared, _) =>
            if shared ≠ 0 then none
            else if cmp (slice br.data (offset + 12) non_shared) target < 0 then
              seekLoop br cmp target fuel mid right
            else seekLoop br cmp target fuel left (mid - 1)
      else some left

/-- The linear scan of `seek` (block.cpp lines 91-98). -/
def scanLoop (br : BlockRef) (cmp : Bytes → Bytes → Int) (target : Bytes) :
    Nat → BIter → BIter
  | 0, it => it
  | fuel + 1, it =>
      let r := parseNextKeyVal br it
      if r.2 = false then r.1
      else if 0 ≤ cmp r.1.key target then r.1
      else scanLoop br cmp target fuel r.1

/-- Binary search, skip-seek decision and scan of `seek` after the bracket
`[left, right]` and `current_key_compare` have been fixed
(block.cpp lines 63-98). -/
def seekRest (br : BlockRef) (cmp : Bytes → Bytes → Int) (it : BIter)
    (target : Bytes) (left right : Nat) (ckc : Int) : BIter :=
  match seekLoop br cmp target (br.num_restarts + 1) left right with
  | none => corruptState br
  | some l =>
      let it1 := if l = it.current_restart ∧ ckc < 0 then it
        else seekToRestartPoint br it l
      scanLoop br cmp target (br.restarts + 1) it1

/-- `BlockIterator::seek` (block.cpp lines 48-99); `cmp` is the configured
comparator (`comparator_->compare`).  `num_restarts_ - 1` is u32
arithmetic. -/
def BIter.seek (br : BlockRef) (cmp : Bytes → Bytes → Int) (it : BIter)
    (target : Bytes) : BIter :=
  let right0 := (br.num_restarts + (pow32 - 1)) % pow32
  if BIter.valid br it then
    let c := cmp it.key target
    if c < 0 then seekRest br cmp it target it.current_restart right0 c
    else if 0 < c then seekRest br cmp it target 0 it.current_restart c
    else it
  else seekRest br cmp it target 0 right0 0

/-- The value `val()` would return: the viewed byte range. -/
def itVal (br : BlockRef) (it : BIter) : Bytes :=
  match it.val with
  | some (o, l) => slice br.data o l
  | none => []

/-- The front-to-back read protocol of the spec: starting from a state,
record `(key(), val())` while `valid()`, advancing with `next()`.  Fuel-
structural; a corrupt block can make the C++ protocol loop forever, so the
fuel is part of the statement (one more than the expected entry count). -/
def collect (br : BlockRef) : Nat → BIter → List (Bytes × Bytes)
  | 0, _ => []
  | fuel + 1, it =>
      if BIter.valid br it then (it.key, itVal br it) :: collect br fuel (BIter.next br it)
      else []

/-! ### Basic lemmas about the byte codec -/

@[simp]
theorem length_enc32 (n : Nat) : (enc32 n).length = 4 := rfl

theorem byteAt_append (A B : Bytes) (i : Nat) :
    byteAt (A ++ B) (A.length + i) = byteAt B i := by
  unfold byteAt
  rw [List.getD_append_right A B 0 (A.length + i) (Nat.le_add_right _ _)]
  simp

theorem dec32_append (A B : Bytes) (i : Nat) :
    dec32 (A ++ B) (A.length + i) = dec32 B i := by
  unfold dec32
  rw [Nat.add_assoc A.length i 1, Nat.add_assoc A.length i 2,
    Nat.add_assoc A.length i 3, byteAt_append, byteAt_append, byteAt_append,
    byteAt_append]

theorem dec32_enc32 (x : Nat) (B : Bytes) (hx : x < pow32) :
    dec32 (enc32 x ++ B) 0 = x := by
  have : pow32 = 4294967296 := rfl
  simp only [dec32, enc32, byteAt, List.cons_append, List.getD_cons_zero,
    List.getD_cons_succ]
  omega

theorem dec32_mid (A B : Bytes) (x : Nat) (hx : x < pow32) :
    dec32 (A ++ enc32 x ++ B) A.length = x := by
  have h1 : A ++ enc32 x ++ B = A ++ (enc32 x ++ B) := by
    rw [List.append_assoc]
  have h2 := dec32_append A (enc32 x ++ B) 0
  rw [h1]
  simpa [dec32_enc32 x B hx] using h2

theorem slice_append (A B : Bytes) (i n : Nat) :
    slice (A ++ B) (A.length + i) n = slice B i n := by
  simp [slice, List.drop_append]

theorem slice_left (A B : Bytes) (n : Nat) (hn : n = A.length) :
    slice (A ++ B) 0 n = A := by
  subst hn; simp [slice, List.take_left]

theorem flatten_map_enc32_length (R : List Nat) :
    ((R.map enc32).flatten).length = 4 * R.length := by
  induction R with
  | nil => rfl
  | cons a t ih => simp [ih]; omega

/-! ### Lemmas about the shared-byte count -/

theorem commonPrefixLen_nil (b : Bytes) : commonPrefixLen [] b = 0 := by
  cases b <;> rfl

theorem commonPrefixLen_le_left (a b : Bytes) :
    commonPrefixLen a b ≤ a.length := by
  induction a generalizing b with
  | nil => simp [commonPrefixLen_nil]
  | cons x xs ih =>
      cases b with
      | nil => simp [commonPrefixLen]
      | cons y ys =>
          unfold commonPrefixLen
          split
          · exact Nat.succ_le_succ (ih ys)
          · exact Nat.zero_le _

theorem commonPrefixLen_le_right (a b : Bytes) :
    commonPrefixLen a b ≤ b.length := by
  induction a generalizing b with
  | nil => simp [commonPrefixLen_nil]
  | cons x xs ih =>
      cases b with
      | nil => simp [commonPrefixLen]
      | cons y ys =>
          unfold commonPrefixLen
          split
          · exact Nat.succ_le_succ (ih ys)
          · exact Nat.zero_le _

theorem commonPrefixLen_take (a b : Bytes) :
    a.take (commonPrefixLen a b) = b.take (commonPrefixLen a b) := by
  induction a generalizing b with
  | nil => simp [commonPrefixLen_nil]
  | cons x xs ih =>
      cases b with
      | nil => simp [commonPrefixLen]
      | cons y ys =>
          unfold commonPrefixLen
          split
          · rename_i h
            simp [h, ih ys]
          · simp

/-! ### Characterization of the builder state after a run of add calls -/

/-- The shared length chosen by `add` for one entry, given the restart
counter. -/
def sharedAt (N c : Nat) (prev k : Bytes) : Nat :=
  if c < N then commonPrefixLen prev k else 0

/-- The bytes `add` appends for one entry. -/
def entEnc (N c : Nat) (prev k v : Bytes) : Bytes :=
  enc32 (sharedAt N c prev k) ++ enc32 (k.length - sharedAt N c prev k) ++
    enc32 v.length ++ k.drop (sharedAt N c prev k) ++ v

/-- The restart counter after one `add`. -/
def nextCounter (N c : Nat) : Nat := if c < N then c + 1 else 1

/-- The data-region bytes a run of `add` calls appends, starting from
previous key `prev` and counter `c`. -/
def layoutBuf (N : Nat) : Bytes → Nat → List (Bytes × Bytes) → Bytes
  | _, _, [] => []
  | prev, c, (k, v) :: rest =>
      entEnc N c prev k v ++ layoutBuf N k (nextCounter N c) rest

/-- The restart offsets a run of `add` calls pushes, starting at buffer
offset `off`. -/
def layoutRestarts (N : Nat) : Bytes → Nat → Nat → List (Bytes × Bytes) → List Nat
  | _, _, _, [] => []
  | prev, c, off, (k, v) :: rest =>
      (if c < N then [] else [off]) ++
        layoutRestarts N k (nextCounter N c) (off + (entEnc N c prev k v).length) rest

/-- The last key after a run of `add` calls. -/
def lastKeyAux (prev : Bytes) : List (Bytes × Bytes) → Bytes
  | [] => prev
  | (k, _) :: rest => lastKeyAux k rest

/-- The restart counter after a run of `add` calls. -/
def counterAux (N : Nat) : Nat → List (Bytes × Bytes) → Nat
  | c, [] => c
  | c, _ :: rest => counterAux N (nextCounter N c) rest

theorem add_eq (N : Nat) (st : BlockBuilder) (k v : Bytes) :
    st.add N k v =
      ⟨st.buffer ++ entEnc N st.counter st.last_key k v, k,
        st.restarts ++ (if st.counter < N then [] else [st.buffer.length]),
        nextCounter N st.counter, st.finished⟩ := by
  unfold BlockBuilder.add entEnc sharedAt nextCounter
  by_cases h : st.counter < N
  · simp only [if_pos h]
    have hk : st.last_key.take (commonPrefixLen st.last_key k) ++
        k.drop (commonPrefixLen st.last_key k) = k := by
      rw [commonPrefixLen_take]
      exact List.take_append_drop _ k
    simp [hk, List.append_assoc]
  · simp only [if_neg h]
    simp [List.append_assoc]

theorem buildList_eq (N : Nat) :
    ∀ (es : List (Bytes × Bytes)) (st : BlockBuilder),
      buildList N st es =
        ⟨st.buffer ++ layoutBuf N st.last_key st.counter es,
          lastKeyAux st.last_key es,
          st.restarts ++ layoutRestarts N st.last_key st.counter st.buffer.length es,
          counterAux N st.counter es, st.finished⟩ := by
  intro es
  induction es with
  | nil => intro st; simp [buildList, layoutBuf, lastKeyAux, layoutRestarts, counterAux]
  | cons p rest ih =>
      intro st
      obtain ⟨k, v⟩ := p
      show buildList N (st.add N k v) rest = _
      rw [ih (st.add N k v), add_eq]
      simp [layoutBuf, lastKeyAux, layoutRestarts, counterAux, List.append_assoc,
        List.length_append]

/-! ### Parsing one entry from an entry boundary -/

theorem sharedAt_le_left (N c : Nat) (prev k : Bytes) :
    sharedAt N c prev k ≤ prev.length := by
  unfold sharedAt
  split
  · exact commonPrefixLen_le_left prev k
  · exact Nat.zero_le _

theorem sharedAt_le_right (N c : Nat) (prev k : Bytes) :
    sharedAt N c prev k ≤ k.length := by
  unfold sharedAt
  split
  · exact commonPrefixLen_le_right prev k
  · exact Nat.zero_le _

theorem take_sharedAt (N c : Nat) (prev k : Bytes) :
    prev.take (sharedAt N c prev k) = k.take (sharedAt N c prev k) := by
  unfold sharedAt
  split
  · exact commonPrefixLen_take prev k
  · simp

theorem length_entEnc (N c : Nat) (prev k v : Bytes) :
    (entEnc N c prev k v).length =
      12 + (k.length - sharedAt N c prev k) + v.length := by
  simp [entEnc]
  omega

/-- Successful `parseNextKeyVal` at an entry boundary: with the cached value
ending exactly where an encoded entry begins and the cached key extending the
shared bytes, the iterator lands on that entry. -/
theorem parse_entry (N : Nat) (br : BlockRef) (A prev k v T2 : Bytes) (c : Nat)
    (it : BIter) (o l : Nat)
    (hdata : br.data = A ++ entEnc N c prev k v ++ T2)
    (hres : A.length + 12 ≤ br.restarts)
    (hkey : it.key = prev)
    (hval : it.val = some (o, l)) (hol : o + l = A.length)
    (hk32 : k.length < pow32) (hv32 : v.length < pow32) :
    parseNextKeyVal br it =
      ({ it with
          current := A.length,
          current_restart :=
            advanceRestart br br.num_restarts it.current_restart A.length,
          key := k,
          val := some (A.length + 12 + (k.length - sharedAt N c prev k),
            v.length) }, true) := by
  have hs32 : sharedAt N c prev k < pow32 :=
    Nat.lt_of_le_of_lt (sharedAt_le_right N c prev k) hk32
  have hns32 : k.length - sharedAt N c prev k < pow32 :=
    Nat.lt_of_le_of_lt (Nat.sub_le _ _) hk32
  have e1 : br.data = A ++ enc32 (sharedAt N c prev k) ++
      (enc32 (k.length - sharedAt N c prev k) ++ (enc32 v.length ++
        (k.drop (sharedAt N c prev k) ++ (v ++ T2)))) := by
    rw [hdata]; simp [entEnc, List.append_assoc]
  have d1 : dec32 br.data A.length = sharedAt N c prev k := by
    rw [e1]; exact dec32_mid _ _ _ hs32
  have e2 : br.data = (A ++ enc32 (sharedAt N c prev k)) ++
      enc32 (k.length - sharedAt N c prev k) ++ (enc32 v.length ++
        (k.drop (sharedAt N c prev k) ++ (v ++ T2))) := by
    rw [e1]; simp [List.append_assoc]
  have d2 : dec32 br.data (A.length + 4) = k.length - sharedAt N c prev k := by
    have := dec32_mid (A ++ enc32 (sharedAt N c prev k))
      (enc32 v.length ++ (k.drop (sharedAt N c prev k) ++ (v ++ T2)))
      (k.length - sharedAt N c prev k) hns32
    rw [e2]
    simpa using this
  have e3 : br.data = (A ++ enc32 (sharedAt N c prev k) ++
      enc32 (k.length - sharedAt N c prev k)) ++ enc32 v.length ++
        (k.drop (sharedAt N c prev k) ++ (v ++ T2)) := by
    rw [e1]; simp [List.append_assoc]
  have d3 : dec32 br.data (A.length + 8) = v.length := by
    have := dec32_mid (A ++ enc32 (sharedAt N c prev k) ++
      enc32 (k.length - sharedAt N c prev k))
      (k.drop (sharedAt N c prev k) ++ (v ++ T2)) v.length hv32
    rw [e3]
    simpa [Nat.add_assoc] using this
  have hdec : decodeEntry br.data A.length br.restarts =
      some (sharedAt N c prev k, k.length - sharedAt N c prev k, v.length) := by
    unfold decodeEntry
    rw [if_neg (by omega)]
    simp only [d1, d2, d3]
  have e4 : br.data = (A ++ enc32 (sharedAt N c prev k) ++
      enc32 (k.length - sharedAt N c prev k) ++ enc32 v.length) ++
        (k.drop (sharedAt N c prev k) ++ (v ++ T2)) := by
    rw [e1]; simp [List.append_assoc]
  have hslice : slice br.data (A.length + 12) (k.length - sharedAt N c prev k) =
      k.drop (sharedAt N c prev k) := by
    rw [e4]
    have h12 : (A ++ enc32 (sharedAt N c prev k) ++
        enc32 (k.length - sharedAt N c prev k) ++ enc32 v.length).length =
        A.length + 12 := by simp
    have := slice_append (A ++ enc32 (sharedAt N c prev k) ++
      enc32 (k.length - sharedAt N c prev k) ++ enc32 v.length)
      (k.drop (sharedAt N c prev k) ++ (v ++ T2)) 0
      (k.length - sharedAt N c prev k)
    rw [h12] at this
    simp only [Nat.add_zero] at this
    rw [this]
    unfold slice
    rw [List.drop_zero,
      List.take_left' (List.length_drop (sharedAt N c prev k) k)]
  have hkeyeq : it.key.take (sharedAt N c prev k) ++
      slice br.data (A.length + 12) (k.length - sharedAt N c prev k) = k := by
    rw [hslice, hkey, take_sharedAt]
    exact List.take_append_drop _ k
  unfold parseNextKeyVal nextEntryOffset
  rw [hval]
  simp only [hol]
  rw [if_neg (by omega), hdec]
  simp only
  rw [if_neg (by rw [hkey]; have := sharedAt_le_left N c prev k; omega)]
  rw [hkeyeq]

/-- Exhausted `parseNextKeyVal`: the cached value ends at (or past) the
restart section. -/
theorem parse_end (br : BlockRef) (it : BIter) (o l : Nat)
    (hval : it.val = some (o, l)) (hol : br.restarts ≤ o + l) :
    parseNextKeyVal br it =
      ({ it with current := br.restarts, current_restart := br.num_restarts },
        false) := by
  unfold parseNextKeyVal nextEntryOffset
  rw [hval]
  simp only [if_pos hol]

/-- The forward run: from a state whose cached value ends exactly at the
start of a laid-out run of entries that fills the data region to its end,
parsing then collecting yields exactly those entries, and the iterator is
exhausted afterwards. -/
theorem collect_run (N : Nat) (br : BlockRef) (T : Bytes) :
    ∀ (es : List (Bytes × Bytes)) (A prev : Bytes) (c : Nat) (it : BIter)
      (o l fuel : Nat),
      br.data = A ++ layoutBuf N prev c es ++ T →
      br.restarts = A.length + (layoutBuf N prev c es).length →
      (∀ p ∈ es, p.1.length < pow32 ∧ p.2.length < pow32) →
      it.key = prev → it.val = some (o, l) → o + l = A.length →
      it.ok = true → es.length + 1 ≤ fuel →
      collect br fuel (parseNextKeyVal br it).1 = es ∧
      BIter.valid br ((BIter.next br)^[es.length] (parseNextKeyVal br it).1)
        = false := by
  intro es
  induction es with
  | nil =>
      intro A prev c it o l fuel hdata hres hk hkey hval hol hok hfuel
      have hend : parseNextKeyVal br it =
          ({ it with
              current := br.restarts,
              current_restart := br.num_restarts }, false) :=
        parse_end br it o l hval (by rw [hres, hol]; simp [layoutBuf])
      rw [hend]
      obtain ⟨f, rfl⟩ : ∃ f, fuel = f + 1 :=
        ⟨fuel - 1, by omega⟩
      refine ⟨?_, ?_⟩
      · show collect br (f + 1) _ = []
        simp [collect, BIter.valid]
      · simp [BIter.valid]
  | cons p rest ih =>
      intro A prev c it o l fuel hdata hres hk hkey hval hol hok hfuel
      obtain ⟨k, v⟩ := p
      have hk32 : k.length < pow32 := (hk (k, v) (by simp)).1
      have hv32 : v.length < pow32 := (hk (k, v) (by simp)).2
      have hlay : layoutBuf N prev c ((k, v) :: rest) =
          entEnc N c prev k v ++ layoutBuf N k (nextCounter N c) rest := rfl
      have hE := length_entEnc N c prev k v
      have hdata1 : br.data = A ++ entEnc N c prev k v ++
          (layoutBuf N k (nextCounter N c) rest ++ T) := by
        rw [hdata, hlay]; simp [List.append_assoc]
      have hres1 : br.restarts = A.length + (entEnc N c prev k v).length +
          (layoutBuf N k (nextCounter N c) rest).length := by
        rw [hres, hlay]; simp [List.length_append]; omega
      have hstep := parse_entry N br A prev k v
        (layoutBuf N k (nextCounter N c) rest ++ T) c it o l hdata1
        (by omega) hkey hval hol hk32 hv32
      rw [hstep]
      set s := sharedAt N c prev k with hs
      set st1 : BIter :=
        { it with
          current := A.length,
          current_restart :=
            advanceRestart br br.num_restarts it.current_restart A.length,
          key := k,
          val := some (A.length + 12 + (k.length - s), v.length) } with hst1
      obtain ⟨f, rfl⟩ : ∃ f, fuel = f + 1 := ⟨fuel - 1, by omega⟩
      have hvalid : BIter.valid br st1 = true := by
        simp only [BIter.valid, hst1]
        simp only [decide_eq_true_eq]
        omega
      have hitval : itVal br st1 = v := by
        have e5 : br.data = (A ++ enc32 s ++ enc32 (k.length - s) ++
            enc32 v.length ++ k.drop s) ++
              (v ++ (layoutBuf N k (nextCounter N c) rest ++ T)) := by
          rw [hdata1]; simp [entEnc, ← hs, List.append_assoc]
        have h5 : (A ++ enc32 s ++ enc32 (k.length - s) ++
            enc32 v.length ++ k.drop s).length = A.length + 12 +
              (k.length - s) := by
          simp [← hs]
          have := sharedAt_le_right N c prev k
          omega
        simp only [itVal, hst1]
        rw [e5]
        have := slice_append (A ++ enc32 s ++ enc32 (k.length - s) ++
          enc32 v.length ++ k.drop s)
          (v ++ (layoutBuf N k (nextCounter N c) rest ++ T)) 0 v.length
        rw [h5] at this
        simp only [Nat.add_zero] at this
        rw [this]
        unfold slice
        rw [List.drop_zero, List.take_left' rfl]
      have hnext : BIter.next br st1 = (parseNextKeyVal br st1).1 := rfl
      have ihappl := ih (A ++ entEnc N c prev k v) k (nextCounter N c) st1
        (A.length + 12 + (k.length - s)) v.length f
        (by rw [hdata1]; simp [List.append_assoc])
        (by rw [hres1]; simp [List.length_append])
        (fun q hq => hk q (by simp [hq]))
        (by simp [hst1]) (by simp [hst1])
        (by simp [List.length_append, hE, ← hs]; omega)
        (by simp [hst1, hok]) (by simpa using Nat.le_of_succ_le_succ hfuel)
      constructor
      · show collect br (f + 1) st1 = (k, v) :: rest
        unfold collect
        rw [if_pos ?_]
        · rw [hnext, ihappl.1]
          simp only [hst1]
          rw [hitval]
        · exact hvalid ▸ rfl
      · show BIter.valid br ((BIter.next br)^[rest.length + 1] st1) = false
        rw [Function.iterate_succ_apply, hnext]
        exact ihappl.2

/-! ### Block construction on builder output -/

theorem dec32_last (A : Bytes) (x : Nat) (hx : x < pow32) :
    dec32 (A ++ enc32 x) A.length = x := by
  have h := dec32_mid A [] x hx
  simpa using h

theorem make_finish (D0 : Bytes) (R : List Nat) (hR : 1 ≤ R.length)
    (hsz : D0.length + 4 * R.length + 4 < pow32) :
    Block.make (D0 ++ ((R.map enc32).flatten ++ enc32 R.length)) =
      ⟨D0 ++ ((R.map enc32).flatten ++ enc32 R.length),
        D0.length + 4 * R.length + 4, D0.length, R.length⟩ := by
  have hsz' : D0.length + 4 * R.length + 4 < 4294967296 := by
    simpa [pow32] using hsz
  set B := D0 ++ ((R.map enc32).flatten ++ enc32 R.length) with hB
  have hlen : B.length = D0.length + 4 * R.length + 4 := by
    simp only [hB, List.length_append, flatten_map_enc32_length, length_enc32]
    omega
  have h4 : sub64 B.length 4 = D0.length + 4 * R.length := by
    rw [hlen]; unfold sub64 pow64; omega
  have hdec : dec32 B (D0.length + 4 * R.length) = R.length := by
    have he : B = (D0 ++ (R.map enc32).flatten) ++ enc32 R.length := by
      simp [hB, List.append_assoc]
    have hlen2 : (D0 ++ (R.map enc32).flatten).length =
        D0.length + 4 * R.length := by
      rw [List.length_append, flatten_map_enc32_length]
    rw [he, ← hlen2]
    exact dec32_last _ _ (by simp only [pow32]; omega)
  have hmaxr : R.length ≤ (D0.length + 4 * R.length) / 4 := by omega
  have hcnt1 : (1 + R.length) % pow32 = 1 + R.length :=
    Nat.mod_eq_of_lt (by simp only [pow32]; omega)
  have hcnt2 : (1 + R.length) * 4 % pow32 = (1 + R.length) * 4 :=
    Nat.mod_eq_of_lt (by simp only [pow32]; omega)
  have hro : sub64 B.length ((1 + R.length) % pow32 * 4 % pow32) =
      D0.length := by
    rw [hcnt1, hcnt2, hlen]; unfold sub64 pow64; omega
  simp only [Block.make]
  rw [h4, hdec, if_neg (by omega), hro, hlen]

theorem sharedAt_nil (N c : Nat) (k : Bytes) : sharedAt N c [] k = 0 := by
  unfold sharedAt
  split
  · exact commonPrefixLen_nil k
  · rfl

/-- The first four bytes of a finished nonempty-or-empty built block decode
to 0 (the first entry's shared field, or the first stored restart offset). -/
theorem dec32_built_zero (N : Nat) (es : List (Bytes × Bytes)) (R2 : List Nat)
    (t : Bytes) :
    dec32 (layoutBuf N [] 0 es ++
      ((((0 : Nat) :: R2).map enc32).flatten ++ t)) 0 = 0 := by
  have h32 : (0 : Nat) < pow32 := by simp [pow32]
  cases es with
  | nil =>
      show dec32 ([] ++ ((enc32 0 ++ (R2.map enc32).flatten) ++ t)) 0 = 0
      simp only [List.nil_append, List.append_assoc]
      exact dec32_enc32 0 _ h32
  | cons p rest =>
      obtain ⟨k, v⟩ := p
      show dec32 ((entEnc N 0 [] k v ++ layoutBuf N k (nextCounter N 0) rest)
        ++ _) 0 = 0
      simp only [entEnc, sharedAt_nil, List.append_assoc]
      exact dec32_enc32 0 _ h32

/-- The `BlockRef` obtained by building a block from `es` with restart
interval `N`, finishing it, and constructing a `Block` over the bytes. -/
def builtBlock (N : Nat) (es : List (Bytes × Bytes)) : BlockRef :=
  (Block.make (BlockBuilder.finish (buildList N BlockBuilder.init es))).ref

/-- The keys of `es` are strictly increasing under the bytewise
comparator (the precondition `BlockBuilder::add` asserts). -/
def sortedStrict : List (Bytes × Bytes) → Bool
  | [] => true
  | [_] => true
  | p :: q :: rest => decide (bcmp p.1 q.1 < 0) && sortedStrict (q :: rest)

theorem finish_buildList_decomp (N : Nat) (es : List (Bytes × Bytes)) :
    BlockBuilder.finish (buildList N BlockBuilder.init es) =
      layoutBuf N [] 0 es ++
        ((((0 : Nat) :: layoutRestarts N [] 0 0 es).map enc32).flatten ++
          enc32 ((0 : Nat) :: layoutRestarts N [] 0 0 es).length) := by
  rw [buildList_eq]
  simp [BlockBuilder.finish, BlockBuilder.init]

theorem builtBlock_eq (N : Nat) (es : List (Bytes × Bytes))
    (hsz : (BlockBuilder.finish (buildList N BlockBuilder.init es)).length
      < pow32) :
    builtBlock N es =
      ⟨layoutBuf N [] 0 es ++
        ((((0 : Nat) :: layoutRestarts N [] 0 0 es).map enc32).flatten ++
          enc32 ((0 : Nat) :: layoutRestarts N [] 0 0 es).length),
        (layoutBuf N [] 0 es).length,
        ((0 : Nat) :: layoutRestarts N [] 0 0 es).length⟩ := by
  have hfin : BlockBuilder.finish (buildList N BlockBuilder.init es) =
      layoutBuf N [] 0 es ++
        ((((0 : Nat) :: layoutRestarts N [] 0 0 es).map enc32).flatten ++
          enc32 ((0 : Nat) :: layoutRestarts N [] 0 0 es).length) := by
    rw [buildList_eq]
    simp [BlockBuilder.finish, BlockBuilder.init]
  rw [hfin] at hsz
  have hlen : (layoutBuf N [] 0 es ++
      ((((0 : Nat) :: layoutRestarts N [] 0 0 es).map enc32).flatten ++
        enc32 ((0 : Nat) :: layoutRestarts N [] 0 0 es).length)).length =
      (layoutBuf N [] 0 es).length +
        4 * ((0 : Nat) :: layoutRestarts N [] 0 0 es).length + 4 := by
    simp only [List.length_append, flatten_map_enc32_length, length_enc32]
    omega
  have hmk := make_finish (layoutBuf N [] 0 es)
    ((0 : Nat) :: layoutRestarts N [] 0 0 es) (by simp)
    (by rw [← hlen]; exact hsz)
  unfold builtBlock
  rw [hfin, hmk]
  rfl

/-- **C1**.  For any list of entries (the claim supplies them with strictly
increasing keys under the repository's bytewise comparator, and the u32
on-disk format requires all lengths below 2^32): building a block, finishing
it, constructing a `Block` and iterating with `first()` then repeated
`next()` yields exactly the original entries in order, and the iterator is
invalid afterwards. -/
theorem c1_forward_roundtrip (N : Nat) (es : List (Bytes × Bytes))
    (hinc : sortedStrict es = true)
    (hbound : ∀ p ∈ es, p.1.length < pow32 ∧ p.2.length < pow32)
    (hsz : (BlockBuilder.finish (buildList N BlockBuilder.init es)).length
      < pow32) :
    collect (builtBlock N es) (es.length + 1)
        (BIter.first (builtBlock N es) BIter.init) = es ∧
    BIter.valid (builtBlock N es)
        ((BIter.next (builtBlock N es))^[es.length]
          (BIter.first (builtBlock N es) BIter.init)) = false := by
  have hbr := builtBlock_eq N es hsz
  set D0 := layoutBuf N [] 0 es with hD0
  set R := (0 : Nat) :: layoutRestarts N [] 0 0 es with hR
  set br : BlockRef := ⟨D0 ++ ((R.map enc32).flatten ++ enc32 R.length),
    D0.length, R.length⟩ with hbrdef
  have hzero : dec32 br.data 0 = 0 := by
    show dec32 (D0 ++ ((R.map enc32).flatten ++ enc32 R.length)) 0 = 0
    rw [hD0, hR]
    exact dec32_built_zero N es _ _
  have hseek : seekToRestartPoint br BIter.init 0 =
      ⟨0, 0, [], some (0, 0), true⟩ := by
    simp [seekToRestartPoint, getRestartOffset, BIter.init, hzero]
  have hrun := collect_run N br ((R.map enc32).flatten ++ enc32 R.length) es
    [] [] 0 ⟨0, 0, [], some (0, 0), true⟩ 0 0 (es.length + 1)
    (by show br.data = [] ++ D0 ++ _; simp [hbrdef, hD0])
    (by show br.restarts = ([] : Bytes).length + D0.length; simp [hbrdef, hD0])
    hbound rfl rfl rfl rfl (Nat.le_refl _)
  rw [hbr]
  show collect br (es.length + 1)
      ((parseNextKeyVal br (seekToRestartPoint br BIter.init 0)).1) = es ∧
    BIter.valid br ((BIter.next br)^[es.length]
      ((parseNextKeyVal br (seekToRestartPoint br BIter.init 0)).1)) = false
  rw [hseek]
  exact hrun

/-! ### Closed-form description of the built layout (restart invariant) -/

def keyAt (es : List (Bytes × Bytes)) (i : Nat) : Bytes := (es.getD i ([], [])).1

def valAt (es : List (Bytes × Bytes)) (i : Nat) : Bytes := (es.getD i ([], [])).2

/-- The shared length the spec prescribes for entry `i`: 0 at every index
that is a multiple of `N`, the common-prefix length with the previous key
otherwise. -/
def sharedSpec (N : Nat) (es : List (Bytes × Bytes)) (i : Nat) : Nat :=
  if i % N = 0 then 0 else commonPrefixLen (keyAt es (i - 1)) (keyAt es i)

/-- The encoded record of entry `i` per the spec layout. -/
def entSpec (N : Nat) (es : List (Bytes × Bytes)) (i : Nat) : Bytes :=
  enc32 (sharedSpec N es i) ++ enc32 ((keyAt es i).length - sharedSpec N es i) ++
    enc32 (valAt es i).length ++ (keyAt es i).drop (sharedSpec N es i) ++
    valAt es i

/-- Buffer offset of entry `i`. -/
def offSpec (N : Nat) (es : List (Bytes × Bytes)) : Nat → Nat
  | 0 => 0
  | i + 1 => offSpec N es i + (entSpec N es i).length

/-- Restart counter before entry `n` when starting from a fresh builder. -/
def cntSpec (N n : Nat) : Nat := if n = 0 then 0 else (n - 1) % N + 1

theorem succ_mod_eq (m N : Nat) (hN : 1 ≤ N) :
    (m + 1) % N = if m % N + 1 = N then 0 else m % N + 1 := by
  rcases Nat.lt_or_ge N 2 with h2 | h2
  · have hN1 : N = 1 := by omega
    subst hN1
    simp [Nat.mod_one]
  · have h1 : (1 : Nat) % N = 1 := Nat.mod_eq_of_lt (by omega)
    rw [Nat.add_mod, h1]
    have hlt : m % N < N := Nat.mod_lt _ (by omega)
    by_cases h : m % N + 1 = N
    · rw [if_pos h, h, Nat.mod_self]
    · rw [if_neg h, Nat.mod_eq_of_lt (by omega)]

theorem nextCounter_cntSpec (N n : Nat) (hN : 1 ≤ N) :
    nextCounter N (cntSpec N n) = cntSpec N (n + 1) := by
  have h0 : 0 < N := hN
  rcases n with _ | m
  · show nextCounter N (cntSpec N 0) = cntSpec N 1
    unfold nextCounter cntSpec
    simp [h0]
  · show nextCounter N (cntSpec N (m + 1)) = cntSpec N (m + 2)
    unfold nextCounter cntSpec
    simp only [Nat.succ_ne_zero, reduceCtorEq, ite_false, Nat.add_sub_cancel,
      Nat.succ_sub_one]
    rw [succ_mod_eq m N hN]
    have hlt : m % N < N := Nat.mod_lt _ h0
    by_cases h : m % N + 1 = N
    · rw [if_neg (by omega), if_pos h]
    · rw [if_pos (by omega), if_neg h]

theorem cntSpec_lt_iff (N n : Nat) (hN : 1 ≤ N) :
    cntSpec N n < N ↔ ¬(0 < n ∧ n % N = 0) := by
  have h0 : 0 < N := hN
  rcases n with _ | m
  · unfold cntSpec
    simp [h0]
  · unfold cntSpec
    simp only [Nat.succ_ne_zero, reduceCtorEq, ite_false, Nat.add_sub_cancel,
      Nat.succ_sub_one]
    rw [succ_mod_eq m N hN]
    have hlt : m % N < N := Nat.mod_lt _ h0
    by_cases h : m % N + 1 = N
    · rw [if_pos h]
      constructor
      · intro hcon
        omega
      · intro hcon
        exact absurd ⟨Nat.succ_pos m, rfl⟩ hcon
    · rw [if_neg h]
      constructor
      · intro _ hcon
        omega
      · intro _
        omega

theorem counterAux_append (N : Nat) :
    ∀ (xs ys : List (Bytes × Bytes)) (c : Nat),
      counterAux N c (xs ++ ys) = counterAux N (counterAux N c xs) ys := by
  intro xs
  induction xs with
  | nil => intro ys c; rfl
  | cons p rest ih => intro ys c; exact ih ys (nextCounter N c)

theorem lastKeyAux_append :
    ∀ (xs ys : List (Bytes × Bytes)) (prev : Bytes),
      lastKeyAux prev (xs ++ ys) = lastKeyAux (lastKeyAux prev xs) ys := by
  intro xs
  induction xs with
  | nil => intro ys prev; rfl
  | cons p rest ih => intro ys prev; exact ih ys p.1

theorem layoutBuf_append (N : Nat) :
    ∀ (xs ys : List (Bytes × Bytes)) (prev : Bytes) (c : Nat),
      layoutBuf N prev c (xs ++ ys) =
        layoutBuf N prev c xs ++
          layoutBuf N (lastKeyAux prev xs) (counterAux N c xs) ys := by
  intro xs
  induction xs with
  | nil => intro ys prev c; rfl
  | cons p rest ih =>
      intro ys prev c
      obtain ⟨k, v⟩ := p
      show entEnc N c prev k v ++ layoutBuf N k (nextCounter N c) (rest ++ ys) = _
      rw [ih ys k (nextCounter N c)]
      simp [layoutBuf, lastKeyAux, counterAux, List.append_assoc]

theorem layoutRestarts_append (N : Nat) :
    ∀ (xs ys : List (Bytes × Bytes)) (prev : Bytes) (c off : Nat),
      layoutRestarts N prev c off (xs ++ ys) =
        layoutRestarts N prev c off xs ++
          layoutRestarts N (lastKeyAux prev xs) (counterAux N c xs)
            (off + (layoutBuf N prev c xs).length) ys := by
  intro xs
  induction xs with
  | nil => intro ys prev c off; simp [layoutRestarts, lastKeyAux, counterAux, layoutBuf]
  | cons p rest ih =>
      intro ys prev c off
      obtain ⟨k, v⟩ := p
      show (if c < N then [] else [off]) ++
          layoutRestarts N k (nextCounter N c) (off + (entEnc N c prev k v).length)
            (rest ++ ys) = _
      rw [ih ys k (nextCounter N c)]
      simp [layoutRestarts, lastKeyAux, counterAux, layoutBuf, List.append_assoc,
        List.length_append, Nat.add_assoc]

theorem counterAux_closed (N : Nat) (hN : 1 ≤ N) (es : List (Bytes × Bytes)) :
    counterAux N 0 es = cntSpec N es.length := by
  induction es using List.reverseRecOn with
  | nil => rfl
  | append_singleton xs e ih =>
      rw [counterAux_append]
      show nextCounter N (counterAux N 0 xs) = _
      rw [ih, nextCounter_cntSpec N xs.length hN]
      simp

theorem lastKeyAux_keyAt :
    ∀ (es : List (Bytes × Bytes)) (prev : Bytes),
      lastKeyAux prev es = if es.length = 0 then prev else keyAt es (es.length - 1) := by
  intro es
  induction es with
  | nil => intro prev; rfl
  | cons p rest ih =>
      intro prev
      show lastKeyAux p.1 rest = _
      rw [ih p.1]
      rcases rest with _ | ⟨q, rest2⟩
      · rfl
      · simp only [List.length_cons, Nat.succ_ne_zero, ite_false, keyAt]
        simp

theorem keyAt_append_lt (es : List (Bytes × Bytes)) (e : Bytes × Bytes)
    (i : Nat) (h : i < es.length) : keyAt (es ++ [e]) i = keyAt es i := by
  unfold keyAt
  rw [List.getD_append _ _ _ _ h]

theorem valAt_append_lt (es : List (Bytes × Bytes)) (e : Bytes × Bytes)
    (i : Nat) (h : i < es.length) : valAt (es ++ [e]) i = valAt es i := by
  unfold valAt
  rw [List.getD_append _ _ _ _ h]

theorem keyAt_append_last (es : List (Bytes × Bytes)) (e : Bytes × Bytes) :
    keyAt (es ++ [e]) es.length = e.1 := by
  unfold keyAt
  rw [List.getD_append_right _ _ _ _ (Nat.le_refl _)]
  simp

theorem valAt_append_last (es : List (Bytes × Bytes)) (e : Bytes × Bytes) :
    valAt (es ++ [e]) es.length = e.2 := by
  unfold valAt
  rw [List.getD_append_right _ _ _ _ (Nat.le_refl _)]
  simp

theorem sharedSpec_append_lt (N : Nat) (es : List (Bytes × Bytes))
    (e : Bytes × Bytes) (i : Nat) (h : i < es.length) :
    sharedSpec N (es ++ [e]) i = sharedSpec N es i := by
  unfold sharedSpec
  rw [keyAt_append_lt es e i h, keyAt_append_lt es e (i - 1) (by omega)]

theorem entSpec_append_lt (N : Nat) (es : List (Bytes × Bytes))
    (e : Bytes × Bytes) (i : Nat) (h : i < es.length) :
    entSpec N (es ++ [e]) i = entSpec N es i := by
  unfold entSpec
  rw [sharedSpec_append_lt N es e i h, keyAt_append_lt es e i h,
    valAt_append_lt es e i h]

theorem offSpec_append_le (N : Nat) (es : List (Bytes × Bytes))
    (e : Bytes × Bytes) : ∀ (i : Nat), i ≤ es.length →
      offSpec N (es ++ [e]) i = offSpec N es i := by
  intro i
  induction i with
  | zero => intro; rfl
  | succ j ih =>
      intro h
      show offSpec N (es ++ [e]) j + (entSpec N (es ++ [e]) j).length = _
      rw [ih (by omega), entSpec_append_lt N es e j (by omega)]
      rfl

theorem offSpec_eq_length (N : Nat) (es : List (Bytes × Bytes)) :
    ∀ (m : Nat), offSpec N es m =
      (((List.range m).map (entSpec N es)).flatten).length := by
  intro m
  induction m with
  | zero => rfl
  | succ j ih =>
      show offSpec N es j + (entSpec N es j).length = _
      rw [ih, List.range_succ]
      simp

theorem build_closed (N : Nat) (hN : 1 ≤ N) (es : List (Bytes × Bytes)) :
    layoutBuf N [] 0 es = ((List.range es.length).map (entSpec N es)).flatten ∧
    layoutRestarts N [] 0 0 es =
      ((List.range es.length).filter
        (fun i => decide (0 < i) && decide (i % N = 0))).map (offSpec N es) := by
  induction es using List.reverseRecOn with
  | nil => exact ⟨rfl, rfl⟩
  | append_singleton xs e ih =>
      obtain ⟨k, v⟩ := e
      set n := xs.length with hn
      have hcnt : counterAux N 0 xs = cntSpec N n := counterAux_closed N hN xs
      have hlk : lastKeyAux ([] : Bytes) xs =
          if n = 0 then [] else keyAt xs (n - 1) := lastKeyAux_keyAt xs []
      have hshared : sharedAt N (counterAux N 0 xs) (lastKeyAux [] xs) k =
          sharedSpec N (xs ++ [(k, v)]) n := by
        unfold sharedAt sharedSpec
        rw [hcnt]
        rcases Nat.eq_zero_or_pos n with hz | hpos
        · rw [hz] at hlk ⊢
          have hlk0 : lastKeyAux ([] : Bytes) xs = [] := by simpa using hlk
          rw [hlk0]
          have hc0 : cntSpec N 0 = 0 := rfl
          rw [hc0, if_pos (show 0 < N from hN), commonPrefixLen_nil,
            if_pos (Nat.zero_mod N)]
        · have hiff := cntSpec_lt_iff N n hN
          by_cases hmod : n % N = 0
          · rw [if_neg (by rw [hiff]; simp [hpos, hmod]), if_pos hmod]
          · rw [if_pos (by rw [hiff]; simp [hmod]), if_neg hmod]
            rw [hlk, if_neg (by omega)]
            rw [keyAt_append_lt xs (k, v) (n - 1) (by omega),
              keyAt_append_last xs (k, v)]
      have hent : entEnc N (counterAux N 0 xs) (lastKeyAux [] xs) k v =
          entSpec N (xs ++ [(k, v)]) n := by
        unfold entEnc entSpec
        rw [hshared, keyAt_append_last xs (k, v), valAt_append_last xs (k, v)]
      constructor
      · rw [layoutBuf_append N xs [(k, v)] [] 0]
        show layoutBuf N [] 0 xs ++ (entEnc _ _ _ k v ++ []) = _
        rw [List.append_nil, ih.1, hent]
        have hrange : List.range (xs ++ [(k, v)]).length =
            List.range n ++ [n] := by
          simp [List.range_succ, hn]
        rw [hrange]
        have hmapeq : (List.range n).map (entSpec N (xs ++ [(k, v)])) =
            (List.range n).map (entSpec N xs) := by
          apply List.map_congr_left
          intro i hi
          exact entSpec_append_lt N xs (k, v) i (List.mem_range.mp hi)
        simp [hmapeq]
      · rw [layoutRestarts_append N xs [(k, v)] [] 0 0]
        show layoutRestarts N [] 0 0 xs ++
          ((if counterAux N 0 xs < N then [] else [0 + (layoutBuf N [] 0 xs).length]) ++ []) = _
        rw [List.append_nil, ih.2]
        have hrange : List.range (xs ++ [(k, v)]).length =
            List.range n ++ [n] := by
          simp [List.range_succ, hn]
        rw [hrange, List.filter_append]
        have hoff : 0 + (layoutBuf N [] 0 xs).length =
            offSpec N (xs ++ [(k, v)]) n := by
          rw [Nat.zero_add, ih.1, offSpec_append_le N xs (k, v) n (Nat.le_refl _),
            offSpec_eq_length]
        have hmapeq : ∀ (l : List Nat), (∀ i ∈ l, i < n) →
            l.map (offSpec N (xs ++ [(k, v)])) = l.map (offSpec N xs) := by
          intro l hl
          apply List.map_congr_left
          intro i hi
          exact offSpec_append_le N xs (k, v) i (Nat.le_of_lt (hl i hi))
        rw [List.map_append]
        rw [hmapeq _ (fun i hi => List.mem_range.mp (List.mem_of_mem_filter hi))]
        congr 1
        have hiff := cntSpec_lt_iff N n hN
        by_cases hc : counterAux N 0 xs < N
        · rw [if_pos hc]
          rw [hcnt] at hc
          have hno : ¬(0 < n ∧ n % N = 0) := (hiff).mp hc
          have hfilter : List.filter (fun i => decide (0 < i) && decide (i % N = 0)) [n] = [] := by
            rw [List.filter_cons, if_neg (by
              simp only [Bool.and_eq_true, decide_eq_true_eq]
              exact hno), List.filter_nil]
          rw [hfilter]
          rfl
        · rw [if_neg hc]
          rw [hcnt] at hc
          have hAnd : 0 < n ∧ n % N = 0 := by
            by_contra hcon
            exact hc ((hiff).mpr hcon)
          have hfilter : List.filter (fun i => decide (0 < i) && decide (i % N = 0)) [n] = [n] := by
            rw [List.filter_cons, if_pos (by
              simp only [Bool.and_eq_true, decide_eq_true_eq]
              exact hAnd), List.filter_nil]
          rw [hfilter, hoff]
          rfl

/-! ### Lemmas for the truncation analysis -/

theorem byteAt_take (s : Bytes) (m i : Nat) (h : i < m) :
    byteAt (s.take m) i = byteAt s i := by
  unfold byteAt
  rw [List.getD_eq_getElem?_getD, List.getD_eq_getElem?_getD,
    List.getElem?_take, if_pos h]

theorem byteAt_dropLast (s : Bytes) (i : Nat) (h : i + 1 < s.length) :
    byteAt s.dropLast i = byteAt s i := by
  rw [List.dropLast_eq_take]
  exact byteAt_take s (s.length - 1) i (by omega)

theorem layoutBuf_len_ge (N : Nat) :
    ∀ (es : List (Bytes × Bytes)) (prev : Bytes) (c : Nat),
      12 * es.length ≤ (layoutBuf N prev c es).length := by
  intro es
  induction es with
  | nil => intro prev c; simp [layoutBuf]
  | cons p rest ih =>
      intro prev c
      obtain ⟨k, v⟩ := p
      show 12 * (rest.length + 1) ≤
        (entEnc N c prev k v ++ layoutBuf N k (nextCounter N c) rest).length
      rw [List.length_append, length_entEnc]
      have := ih k (nextCounter N c)
      omega

theorem layoutRestarts_len_le (N : Nat) :
    ∀ (es : List (Bytes × Bytes)) (prev : Bytes) (c off : Nat),
      (layoutRestarts N prev c off es).length ≤ es.length := by
  intro es
  induction es with
  | nil => intro prev c off; simp [layoutRestarts]
  | cons p rest ih =>
      intro prev c off
      obtain ⟨k, v⟩ := p
      show ((if c < N then [] else [off]) ++ layoutRestarts N k (nextCounter N c)
        (off + (entEnc N c prev k v).length) rest).length ≤ rest.length + 1
      rw [List.length_append]
      have := ih k (nextCounter N c) (off + (entEnc N c prev k v).length)
      split <;> simp <;> omega

theorem make_invalid (bytes : Bytes)
    (h : sub64 bytes.length 4 / 4 < dec32 bytes (sub64 bytes.length 4)) :
    Block.make bytes = ⟨bytes, 0, 0, dec32 bytes (sub64 bytes.length 4)⟩ := by
  simp only [Block.make]
  rw [if_pos h]

/-- First on a zero-sized (invalid) block: exhausted, OK status, no
entries. -/
theorem first_zero_restarts (br : BlockRef) (h : br.restarts = 0) :
    (BIter.first br BIter.init).ok = true ∧
    BIter.valid br (BIter.first br BIter.init) = false ∧
    ∀ fuel, collect br fuel (BIter.first br BIter.init) = [] := by
  have hfirst : BIter.first br BIter.init =
      { current := br.restarts, current_restart := br.num_restarts,
        key := [], val := some (getRestartOffset br 0, 0), ok := true } := by
    unfold BIter.first seekToRestartPoint parseNextKeyVal nextEntryOffset
    simp only [BIter.init]
    rw [if_pos (by omega)]
  rw [hfirst]
  refine ⟨rfl, by simp [BIter.valid], ?_⟩
  intro fuel
  cases fuel with
  | zero => rfl
  | succ f =>
      show collect br (f + 1) _ = []
      simp [collect, BIter.valid]

/-! ### Concrete blocks used across the claims -/

/-- Keys 97 ("a") / 98 ("b") with values 49 ("1") / 50 ("2"). -/
def oneEntryEs : List (Bytes × Bytes) := [([97], [49])]

def twoEntryEs : List (Bytes × Bytes) := [([97], [49]), ([98], [50])]

/-- The apple/application/banana scenario of the spec. -/
def applesEs : List (Bytes × Bytes) :=
  [([97, 112, 112, 108, 101], [49]),
   ([97, 112, 112, 108, 105, 99, 97, 116, 105, 111, 110], [50]),
   ([98, 97, 110, 97, 110, 97], [51])]

/-- One-entry block, restart interval 16 (a single restart point). -/
def oneB : Bytes := BlockBuilder.finish (buildList 16 BlockBuilder.init oneEntryEs)

def oneRef : BlockRef := (Block.make oneB).ref

/-- Two-entry block, restart interval 1 (two restart points). -/
def twoB : Bytes := BlockBuilder.finish (buildList 1 BlockBuilder.init twoEntryEs)

def twoRef : BlockRef := (Block.make twoB).ref

/-- A handcrafted 9-byte block: data region of 1 byte, one restart, so the
first entry is malformed (fewer than 3 bytes before the restart section). -/
def mal9 : Bytes := [0, 0, 0, 0, 0, 1, 0, 0, 0]

def mal9Ref : BlockRef := (Block.make mal9).ref

/-- `oneB` truncated by one byte. -/
def oneBTrunc : Bytes := oneB.dropLast

/-- `oneB` with its only restart-table slot overwritten by 9999, far past the
14-byte data region. -/
def oneBCorrupt : Bytes := oneB.take 14 ++ enc32 9999 ++ oneB.drop 18

/-! ### Claim theorems -/

/-- **C2** (code evaluated at the failing input).  The block built from keys
97 and 98 with restart interval 1 is well formed (forward iteration yields
both entries), yet `seek` for key 98 on a fresh iterator reports a
corruption status and leaves the iterator invalid, instead of landing on the
entry with key 98: `getRestartOffset` reads restart offsets from the start
of the block rather than from the restart section, so the binary search
decodes mid-entry bytes as an entry and sees a non-zero shared field. -/
theorem c2_seek_corrupts_on_wellformed_block :
    collect twoRef 3 (BIter.first twoRef BIter.init) = twoEntryEs ∧
    (BIter.seek twoRef bcmp BIter.init [98]).ok = false ∧
    BIter.valid twoRef (BIter.seek twoRef bcmp BIter.init [98]) = false ∧
    (BIter.seek twoRef bcmp BIter.init [98]).key = [] := by
  refine ⟨by decide, by decide, by decide, by decide⟩

/-- **C3** (code evaluated at the failing input).  On a block whose single
entry is malformed (decodeEntry returns the null sentinel), `first()`
returns with an OK status, a still-valid iterator and an uncleared cached
value, instead of setting a corruption status and moving to the exhausted
state: `parseNextKeyVal` only returns false on decode failure (the `TODO`
at block.cpp line 163). -/
theorem c3_decode_failure_not_surfaced :
    decodeEntry mal9Ref.data 0 mal9Ref.restarts = none ∧
    (BIter.first mal9Ref BIter.init).ok = true ∧
    BIter.valid mal9Ref (BIter.first mal9Ref BIter.init) = true ∧
    (BIter.first mal9Ref BIter.init).val = some (0, 0) := by
  refine ⟨by decide, by decide, by decide, by decide⟩

/-- **C6** (code evaluated at the failing input).  On the well-formed block
built from keys 97 and 98 with restart interval 1, `last()` does not land on
the final entry (98, 50): it reads the final restart offset from the data
region (`getRestartOffset` omits `restarts_`), lands mid-entry, fails to
parse, and leaves a "valid" iterator whose key is the empty string, so
`last()`/`prev()` cannot reproduce the reversed sequence. -/
theorem c6_last_misparses :
    collect twoRef 3 (BIter.first twoRef BIter.init) = twoEntryEs ∧
    (BIter.last twoRef BIter.init).key = [] ∧
    BIter.valid twoRef (BIter.last twoRef BIter.init) = true ∧
    (BIter.last twoRef BIter.init).ok = true := by
  refine ⟨by decide, by decide, by decide, by decide⟩

/-- **C7** (code evaluated at the failing input).  Seeking the empty target
on the one-entry block: from a freshly created iterator, `seek` returns
immediately (the fresh iterator is counted as valid with an empty cached
key comparing equal to the target) and the iterator ends with key `[]`;
from the state after `first()`, the same `seek` lands on the real entry
with key `[97]`.  The final entry therefore depends on the prior state. -/
theorem c7_seek_depends_on_state :
    (BIter.seek oneRef bcmp BIter.init []).key = [] ∧
    BIter.valid oneRef (BIter.seek oneRef bcmp BIter.init []) = true ∧
    (BIter.seek oneRef bcmp (BIter.first oneRef BIter.init) []).key = [97] ∧
    BIter.valid oneRef
      (BIter.seek oneRef bcmp (BIter.first oneRef BIter.init) []) = true := by
  refine ⟨by decide, by decide, by decide, by decide⟩

/-- **C8**.  `reset()` restores exactly the freshly constructed builder
state, so feeding any entry sequence after a reset produces byte-identical
`finish()` output to a fresh builder. -/
theorem c8_reset_idempotent (st : BlockBuilder) (N : Nat)
    (es : List (Bytes × Bytes))
    (hinc : sortedStrict es = true) :
    BlockBuilder.finish (buildList N st.reset es) =
      BlockBuilder.finish (buildList N BlockBuilder.init es) := rfl

theorem c8_reset_idempotent_witness :
    BlockBuilder.finish
        (buildList 16 (buildList 16 BlockBuilder.init oneEntryEs).reset
          twoEntryEs) =
      BlockBuilder.finish (buildList 16 BlockBuilder.init twoEntryEs) :=
  c8_reset_idempotent (buildList 16 BlockBuilder.init oneEntryEs) 16 twoEntryEs
    (by decide)

/-- **C9**.  At any point, `sizeEstimate()` (buffer length plus 4 bytes per
recorded restart offset plus 4 bytes for the count) equals the exact length
of the byte string `finish()` would return at that point. -/
theorem c9_sizeEstimate_exact (st : BlockBuilder) :
    st.sizeEstimate = st.buffer.length + st.restarts.length * 4 + 4 ∧
    (BlockBuilder.finish st).length = st.sizeEstimate := by
  constructor
  · rfl
  · unfold BlockBuilder.finish BlockBuilder.sizeEstimate
    simp only [List.length_append, flatten_map_enc32_length, length_enc32]
    omega

/-- The block built with no `add` calls. -/
def emptyBuiltRef : BlockRef :=
  (Block.make (BlockBuilder.finish BlockBuilder.init)).ref

/-- **C10**.  A builder finished with zero adds produces exactly the 8 bytes
(restart offset 0, restart count 1); the Block constructor accepts them
(size 8, restart section at offset 0, one restart), and `first()`, `last()`
and `seek(t)` for every target each leave the iterator invalid with an OK
status. -/
theorem c10_empty_block (t : Bytes) :
    BlockBuilder.finish BlockBuilder.init = [0, 0, 0, 0, 1, 0, 0, 0] ∧
    Block.make (BlockBuilder.finish BlockBuilder.init) =
      ⟨[0, 0, 0, 0, 1, 0, 0, 0], 8, 0, 1⟩ ∧
    (BIter.valid emptyBuiltRef (BIter.first emptyBuiltRef BIter.init) = false ∧
      (BIter.first emptyBuiltRef BIter.init).ok = true) ∧
    (BIter.valid emptyBuiltRef (BIter.last emptyBuiltRef BIter.init) = false ∧
      (BIter.last emptyBuiltRef BIter.init).ok = true) ∧
    (BIter.valid emptyBuiltRef (BIter.seek emptyBuiltRef bcmp BIter.init t)
        = false ∧
      (BIter.seek emptyBuiltRef bcmp BIter.init t).ok = true) := by
  refine ⟨by decide, by decide, ⟨by decide, by decide⟩, ⟨by decide, by decide⟩,
    ⟨?_, ?_⟩⟩
  · rfl
  · rfl

theorem c1_forward_roundtrip_witness :
    collect (builtBlock 16 oneEntryEs) (oneEntryEs.length + 1)
        (BIter.first (builtBlock 16 oneEntryEs) BIter.init) = oneEntryEs ∧
    BIter.valid (builtBlock 16 oneEntryEs)
        ((BIter.next (builtBlock 16 oneEntryEs))^[oneEntryEs.length]
          (BIter.first (builtBlock 16 oneEntryEs) BIter.init)) = false :=
  c1_forward_roundtrip 16 oneEntryEs (by decide) (by decide) (by decide)

/-- **C5** counterexample.  In the spec's concrete scenario
(apple/application/banana, interval 2) the shared field encoded for entry 1
is 4 — the longest common prefix of apple and application is appl — not the
claimed 5; the entry-1 record starts at buffer offset 18. -/
theorem c5_concrete_shared_is_4 :
    dec32 (buildList 2 BlockBuilder.init applesEs).buffer 18 = 4 ∧
    ¬dec32 (buildList 2 BlockBuilder.init applesEs).buffer 18 = 5 := by
  refine ⟨by decide, by decide⟩

/-- **C5** (amended).  General part: for interval `N ≥ 1`, the built buffer
is the concatenation of the entry records in which entry `i` carries
shared = 0 when `i % N = 0` and shared = common-prefix-length with the
previous key otherwise, and the restart list is 0 followed by the offsets of
every later entry whose index is a multiple of `N`.  Concrete part: for
apple/application/banana with interval 2 the shared/non-shared fields are
(0,5), (4,7), (0,6) — entry 1 stores suffix "ication" — and the restart
table is [0, 38]. -/
theorem c5_restart_invariant (N : Nat) (es : List (Bytes × Bytes))
    (hN : 1 ≤ N) (hinc : sortedStrict es = true) :
    ((buildList N BlockBuilder.init es).buffer =
        ((List.range es.length).map (entSpec N es)).flatten ∧
      (buildList N BlockBuilder.init es).restarts =
        0 :: ((List.range es.length).filter
          (fun i => decide (0 < i) && decide (i % N = 0))).map (offSpec N es)) ∧
    ((buildList 2 BlockBuilder.init applesEs).buffer =
        enc32 0 ++ enc32 5 ++ enc32 1 ++ [97, 112, 112, 108, 101] ++ [49] ++
          (enc32 4 ++ enc32 7 ++ enc32 1 ++
            [105, 99, 97, 116, 105, 111, 110] ++ [50]) ++
          (enc32 0 ++ enc32 6 ++ enc32 1 ++ [98, 97, 110, 97, 110, 97] ++
            [51]) ∧
      (buildList 2 BlockBuilder.init applesEs).restarts = [0, 38]) := by
  refine ⟨?_, by decide, by decide⟩
  have hb := buildList_eq N es BlockBuilder.init
  have hc := build_closed N hN es
  constructor
  · rw [hb]
    show ([] : Bytes) ++ layoutBuf N [] 0 es = _
    rw [List.nil_append, hc.1]
  · rw [hb]
    show [(0 : Nat)] ++ layoutRestarts N [] 0 0 es = _
    rw [hc.2]
    rfl

theorem c5_restart_invariant_witness :
    (((buildList 2 BlockBuilder.init applesEs).buffer =
        ((List.range applesEs.length).map (entSpec 2 applesEs)).flatten ∧
      (buildList 2 BlockBuilder.init applesEs).restarts =
        0 :: ((List.range applesEs.length).filter
          (fun i => decide (0 < i) && decide (i % 2 = 0))).map
            (offSpec 2 applesEs)) ∧
    ((buildList 2 BlockBuilder.init applesEs).buffer =
        enc32 0 ++ enc32 5 ++ enc32 1 ++ [97, 112, 112, 108, 101] ++ [49] ++
          (enc32 4 ++ enc32 7 ++ enc32 1 ++
            [105, 99, 97, 116, 105, 111, 110] ++ [50]) ++
          (enc32 0 ++ enc32 6 ++ enc32 1 ++ [98, 97, 110, 97, 110, 97] ++
            [51]) ∧
      (buildList 2 BlockBuilder.init applesEs).restarts = [0, 38])) :=
  c5_restart_invariant 2 applesEs (by decide) (by decide)

/-- **C4** counterexample.  Truncating the finished one-entry block by one
byte makes the Block constructor treat the block as invalid, but iteration
reports an OK — not non-OK — status: the iterator is merely invalid/empty. -/
theorem c4_truncation_keeps_ok_status :
    (Block.make oneBTrunc).size = 0 ∧
    (BIter.first (Block.make oneBTrunc).ref BIter.init).ok = true ∧
    BIter.valid (Block.make oneBTrunc).ref
      (BIter.first (Block.make oneBTrunc).ref BIter.init) = false ∧
    collect (Block.make oneBTrunc).ref 2
      (BIter.first (Block.make oneBTrunc).ref BIter.init) = [] := by
  refine ⟨by decide, by decide, by decide, by decide⟩

/-- **C4** (amended).  General part: for any block built from a non-empty
strictly increasing input whose finished size is at most 1028 bytes,
truncating the byte buffer by one byte makes the Block constructor treat the
block as invalid (size 0); `first()` then leaves the iterator invalid with
an OK status and iteration yields no entries (and no reads outside the
buffer) — it does not surface a non-OK status.  Concrete part: overwriting
the one-entry block's restart offset with 9999 (far beyond the 14-byte data
region) leaves forward iteration completely unaffected — it still yields the
original entry with OK status — because `first()`/`next()` never read the
stored restart table. -/
theorem c4_corruption_behavior (N : Nat) (es : List (Bytes × Bytes))
    (hne : 0 < es.length)
    (hinc : sortedStrict es = true)
    (hsz : (BlockBuilder.finish (buildList N BlockBuilder.init es)).length
      ≤ 1028) :
    ((Block.make
        (BlockBuilder.finish (buildList N BlockBuilder.init es)).dropLast).size
        = 0 ∧
      (BIter.first
        (Block.make (BlockBuilder.finish
          (buildList N BlockBuilder.init es)).dropLast).ref BIter.init).ok
        = true ∧
      BIter.valid
        (Block.make (BlockBuilder.finish
          (buildList N BlockBuilder.init es)).dropLast).ref
        (BIter.first
          (Block.make (BlockBuilder.finish
            (buildList N BlockBuilder.init es)).dropLast).ref BIter.init)
        = false ∧
      ∀ fuel, collect
        (Block.make (BlockBuilder.finish
          (buildList N BlockBuilder.init es)).dropLast).ref fuel
        (BIter.first
          (Block.make (BlockBuilder.finish
            (buildList N BlockBuilder.init es)).dropLast).ref BIter.init)
        = []) ∧
    (dec32 oneBCorrupt 14 = 9999 ∧
      (Block.make oneBCorrupt).restart_offset = 14 ∧
      collect (Block.make oneBCorrupt).ref 2
        (BIter.first (Block.make oneBCorrupt).ref BIter.init) = oneEntryEs ∧
      (BIter.first (Block.make oneBCorrupt).ref BIter.init).ok = true) := by
  refine ⟨?_, by decide, by decide, by decide, by decide⟩
  set B := BlockBuilder.finish (buildList N BlockBuilder.init es) with hBdef
  have hfin := finish_buildList_decomp N es
  rw [← hBdef] at hfin
  set dlen := (layoutBuf N [] 0 es).length with hdlen
  set rlen := (layoutRestarts N [] 0 0 es).length with hrlen
  have hcnt : ((0 : Nat) :: layoutRestarts N [] 0 0 es).length = rlen + 1 := by
    simp [hrlen]
  have hLeq : B.length = dlen + 4 * (rlen + 1) + 4 := by
    rw [hfin]
    simp only [List.length_append, flatten_map_enc32_length, length_enc32,
      hcnt]
    omega
  have h12 : 12 * es.length ≤ dlen := layoutBuf_len_ge N es [] 0
  have hrle : rlen ≤ es.length := layoutRestarts_len_le N es [] 0 0
  have hszB : B.length ≤ 1028 := hsz
  have hcnt64 : rlen + 1 ≤ 64 := by omega
  have hL20 : 20 ≤ B.length := by omega
  have hassoc : B = (layoutBuf N [] 0 es ++
      (((0 : Nat) :: layoutRestarts N [] 0 0 es).map enc32).flatten) ++
        enc32 (rlen + 1) := by
    rw [hfin, hcnt, List.append_assoc]
  have hprelen : (layoutBuf N [] 0 es ++
      (((0 : Nat) :: layoutRestarts N [] 0 0 es).map enc32).flatten).length =
      B.length - 4 := by
    simp only [List.length_append, flatten_map_enc32_length, hcnt]
    omega
  have hbyte : ∀ j, byteAt B (B.length - 4 + j) = byteAt (enc32 (rlen + 1)) j := by
    intro j
    rw [← hprelen]
    conv_lhs => rw [hassoc]
    exact byteAt_append _ _ j
  have hb0 : byteAt B (B.length - 4) = rlen + 1 := by
    have h := hbyte 0
    rw [Nat.add_zero] at h
    rw [h]
    show (rlen + 1) % 256 = rlen + 1
    omega
  have hb1 : byteAt B (B.length - 3) = 0 := by
    have h := hbyte 1
    rw [show B.length - 4 + 1 = B.length - 3 by omega] at h
    rw [h]
    show (rlen + 1) / 256 % 256 = 0
    omega
  have hb2 : byteAt B (B.length - 2) = 0 := by
    have h := hbyte 2
    rw [show B.length - 4 + 2 = B.length - 2 by omega] at h
    rw [h]
    show (rlen + 1) / 65536 % 256 = 0
    omega
  have hlen' : B.dropLast.length = B.length - 1 := by
    simp [List.length_dropLast]
  have hsubB : sub64 B.dropLast.length 4 = B.length - 5 := by
    rw [hlen']
    have : B.length < pow64 := by unfold pow64; omega
    unfold sub64 pow64
    unfold pow64 at this
    omega
  have hdnum : 256 ≤ dec32 B.dropLast (B.length - 5) := by
    unfold dec32
    have e1 : B.length - 5 + 1 = B.length - 4 := by omega
    have e2 : B.length - 5 + 2 = B.length - 3 := by omega
    have e3 : B.length - 5 + 3 = B.length - 2 := by omega
    rw [e1, e2, e3]
    rw [byteAt_dropLast B (B.length - 4) (by omega), hb0]
    omega
  have hinv : sub64 B.dropLast.length 4 / 4 <
      dec32 B.dropLast (sub64 B.dropLast.length 4) := by
    rw [hsubB]
    have : (B.length - 5) / 4 ≤ 255 := by omega
    omega
  have hmk := make_invalid B.dropLast hinv
  have hres0 : (Block.make B.dropLast).ref.restarts = 0 := by
    rw [hmk]
    rfl
  have hfz := first_zero_restarts (Block.make B.dropLast).ref hres0
  exact ⟨by rw [hmk], hfz.1, hfz.2.1, hfz.2.2⟩

theorem c4_corruption_behavior_witness :
    ((Block.make
        (BlockBuilder.finish (buildList 16 BlockBuilder.init oneEntryEs)).dropLast).size
        = 0 ∧
      (BIter.first
        (Block.make (BlockBuilder.finish
          (buildList 16 BlockBuilder.init oneEntryEs)).dropLast).ref
        BIter.init).ok = true ∧
      BIter.valid
        (Block.make (BlockBuilder.finish
          (buildList 16 BlockBuilder.init oneEntryEs)).dropLast).ref
        (BIter.first
          (Block.make (BlockBuilder.finish
            (buildList 16 BlockBuilder.init oneEntryEs)).dropLast).ref
          BIter.init) = false ∧
      ∀ fuel, collect
        (Block.make (BlockBuilder.finish
          (buildList 16 BlockBuilder.init oneEntryEs)).dropLast).ref fuel
        (BIter.first
          (Block.make (BlockBuilder.finish
            (buildList 16 BlockBuilder.init oneEntryEs)).dropLast).ref
          BIter.init) = []) ∧
    (dec32 oneBCorrupt 14 = 9999 ∧
      (Block.make oneBCorrupt).restart_offset = 14 ∧
      collect (Block.make oneBCorrupt).ref 2
        (BIter.first (Block.make oneBCorrupt).ref BIter.init) = oneEntryEs ∧
      (BIter.first (Block.make oneBCorrupt).ref BIter.init).ok = true) :=
  c4_corruption_behavior 16 oneEntryEs (by decide) (by decide) (by decide)

end pl
